import Mathlib

/-!
Formal model of `src/preprocessor/preprocessing.py`: the `FileIO` storage
helper (parquet/json save and load) and the `Utilities` record normalizer
(`convert_raw_data`, `create_video_url`).

Python values are embedded as the inductive type `Value` (JSON-like values
plus `arr` for native numpy-style arrays as they appear after a parquet
load).  Python dicts are association lists with the usual first-match lookup;
the dicts produced by Python code always have distinct keys.  Exceptions are
modelled with `Except PyErr`.  The filesystem is a pure `FS` value holding
the decoded content of each file plus the set of existing directories.
-/

/-- Embedded Python/JSON value.  `arr` models a native (numpy) array as
produced by a parquet read, as opposed to `list`, a plain Python list. -/
inductive Value where
  | null
  | bool (b : Bool)
  | int (n : Int)
  | str (s : String)
  | list (xs : List Value)
  | arr (xs : List Value)
  | obj (fields : List (String × Value))

/-- Python exception kinds raised by the modelled code. -/
inductive PyErr where
  | typeError
  | keyError (k : String)
  | indexError
  | valueError
  | attributeError
  | fileExistsError
  | fileNotFoundError
  | isADirectoryError
deriving DecidableEq

/-- First-match lookup in an association list (Python `d[k]` when present). -/
def dlookup {α : Type} (k : String) : List (String × α) → Option α
  | [] => none
  | p :: ps => if p.1 = k then some p.2 else dlookup k ps

/-- Python `k in d`. -/
def hasKey {α : Type} (k : String) (d : List (String × α)) : Bool :=
  (dlookup k d).isSome

/-- Python `d[k] = v`: update the value in place if the key exists
(keeping its position), otherwise append the new key at the end. -/
def dictSet (d : List (String × Value)) (k : String) (v : Value) : List (String × Value) :=
  if hasKey k d then d.map (fun p => if p.1 = k then (k, v) else p)
  else d ++ [(k, v)]

/-- Python `del d[k]`: `none` models the `KeyError` on a missing key. -/
def dictDel (d : List (String × Value)) (k : String) : Option (List (String × Value)) :=
  if hasKey k d then some (d.filter (fun p => !(p.1 = k : Bool))) else none

/-- Sequential `del d[f]` for every `f` in `fields` (the loop on lines
144-145 of the source); the first missing key aborts with `none`. -/
def delAll (d : List (String × Value)) : List String → Option (List (String × Value))
  | [] => some d
  | f :: fs =>
    match dictDel d f with
    | none => none
    | some d1 => delAll d1 fs

/-- Python subscription `v[k]` with a string key: only dicts succeed
(`KeyError` when the key is absent, `TypeError` on any other value). -/
def getItemV (v : Value) (k : String) : Except PyErr Value :=
  match v with
  | .obj fs =>
    match dlookup k fs with
    | some x => .ok x
    | none => .error (.keyError k)
  | _ => .error .typeError

/-- Python subscription `v[i]` with a non-negative integer index:
lists index their elements, strings yield one-character strings,
anything else raises `TypeError`. -/
def pyIndex (v : Value) (i : Nat) : Except PyErr Value :=
  match v with
  | .list xs =>
    match xs[i]? with
    | some x => .ok x
    | none => .error .indexError
  | .str s =>
    match s.data[i]? with
    | some c => .ok (.str (String.mk [c]))
    | none => .error .indexError
  | _ => .error .typeError

/-- Python `v.get(k)`: defined on dicts (returning `None` when the key is
absent), `AttributeError` on every other value. -/
def pyGet (v : Value) (k : String) : Except PyErr Value :=
  match v with
  | .obj fs => .ok ((dlookup k fs).getD .null)
  | _ => .error .attributeError

def isDigitChar (c : Char) : Bool := '0' ≤ c && c ≤ '9'

def digitsVal (acc : Nat) : List Char → Nat
  | [] => acc
  | c :: cs => digitsVal (acc * 10 + (c.toNat - ('0').toNat)) cs

/-- Decimal integer literal parser underlying Python `int(str)`:
an optional sign followed by a nonempty run of digits. -/
def parseIntChars : List Char → Option Int
  | [] => none
  | '-' :: cs =>
    if cs ≠ [] ∧ cs.all isDigitChar then some (-(digitsVal 0 cs : Int)) else none
  | '+' :: cs =>
    if cs ≠ [] ∧ cs.all isDigitChar then some ((digitsVal 0 cs : Int)) else none
  | cs => if cs.all isDigitChar then some ((digitsVal 0 cs : Int)) else none

def trimChars (cs : List Char) : List Char :=
  ((cs.dropWhile Char.isWhitespace).reverse.dropWhile Char.isWhitespace).reverse

/-- Python `int(v)` on the values that occur here: ints pass through, bools
coerce to 0/1, strings are trimmed and parsed as decimal integers
(`ValueError` on failure), anything else raises `TypeError`. -/
def pyInt (v : Value) : Except PyErr Int :=
  match v with
  | .int n => .ok n
  | .bool b => .ok (if b then 1 else 0)
  | .str s =>
    match parseIntChars (trimChars s.data) with
    | some n => .ok n
    | none => .error .valueError
  | _ => .error .typeError

/-- The eight dropped fields (line 134-135 of the source). -/
def drops : List String :=
  ["channelId", "isOwnerViewing", "isCrawlable", "allowRatings",
   "author", "isPrivate", "isUnpluggedCorpus", "isLiveContent"]

/-- Error-propagating map over a list (the `for d in data` loop: the first
exception aborts the whole call). -/
def mapE {α β : Type} (f : α → Except PyErr β) : List α → Except PyErr (List β)
  | [] => .ok []
  | x :: xs =>
    match f x with
    | .error e => .error e
    | .ok y =>
      match mapE f xs with
      | .error e => .error e
      | .ok ys => .ok (y :: ys)

/-- Last steps of the loop body (lines 143-145): `del d['thumbnail']`
followed by `del d[field]` for the eight dropped fields. -/
def finishRecord (f3 : List (String × Value)) : Except PyErr Value :=
  match dictDel f3 "thumbnail" with
  | none => .error (.keyError "thumbnail")
  | some f4 =>
    match delAll f4 drops with
    | none => .error (.keyError "drop")
    | some f5 => .ok (.obj f5)

/-- Line 142: `d['viewCount'] = int(d['viewCount'])`. -/
def coerceViewCount (f2 : List (String × Value)) : Except PyErr Value :=
  match getItemV (.obj f2) "viewCount" with
  | .error e => .error e
  | .ok vc =>
    match pyInt vc with
    | .error e => .error e
    | .ok n2 => finishRecord (dictSet f2 "viewCount" (.int n2))

/-- Line 141: `d['lengthSeconds'] = int(d['lengthSeconds'])`. -/
def coerceLengthSeconds (f1 : List (String × Value)) : Except PyErr Value :=
  match getItemV (.obj f1) "lengthSeconds" with
  | .error e => .error e
  | .ok ls =>
    match pyInt ls with
    | .error e => .error e
    | .ok n1 => coerceViewCount (dictSet f1 "lengthSeconds" (.int n1))

/-- The body of the `for d in data` loop of `Utilities.convert_raw_data`
(lines 139-145): set `thumbnail_url` from `d['thumbnail']['thumbnails'][1].get('url')`,
coerce `lengthSeconds` and `viewCount` with `int`, delete `thumbnail`,
then delete each of the eight dropped fields. -/
def processRecord (v : Value) : Except PyErr Value :=
  match v with
  | .obj fs =>
    match getItemV (.obj fs) "thumbnail" with
    | .error e => .error e
    | .ok thumb =>
      match getItemV thumb "thumbnails" with
      | .error e => .error e
      | .ok thumbs =>
        match pyIndex thumbs 1 with
        | .error e => .error e
        | .ok entry =>
          match pyGet entry "url" with
          | .error e => .error e
          | .ok url => coerceLengthSeconds (dictSet fs "thumbnail_url" url)
  | _ => .error .typeError

/-- `Utilities.convert_raw_data` (lines 128-146): `TypeError` unless the
input is a dict; keeps the values of the entries whose (outer) key is not in
`drops` (line 138: `[v for k, v in raw_data.items() if k not in drops]`),
then runs the per-record loop over them. -/
def convert_raw_data (raw : Value) : Except PyErr (List Value) :=
  match raw with
  | .obj kvs =>
    mapE processRecord ((kvs.filter (fun p => !(drops.contains p.1))).map (fun p => p.2))
  | _ => .error .typeError

/-- `Utilities.create_video_url` (lines 115-126). -/
def create_video_url (video_id : String) (playlist_id : String) : String :=
  "https://www.youtube.com/watch?v=" ++ video_id ++ "&list=" ++ playlist_id

/-- Is `pre` a prefix of `l` (character comparison)? -/
def isPrefixOfB : List Char → List Char → Bool
  | [], _ => true
  | _ :: _, [] => false
  | a :: as, b :: bs => a == b && isPrefixOfB as bs

/-- Python `s.endswith(suf)`. -/
def strEndsWith (s suf : String) : Bool :=
  isPrefixOfB suf.data.reverse s.data.reverse

/-- Split a character list at the last occurrence of `t`:
`some (before, after)`, or `none` when `t` does not occur. -/
def splitLastChar (t : Char) : List Char → Option (List Char × List Char)
  | [] => none
  | c :: cs =>
    match splitLastChar t cs with
    | some (a, b) => some (c :: a, b)
    | none => if c = t then some ([], cs) else none

/-- Split a character list at its last slash. -/
def splitLastSlash : List Char → Option (List Char × List Char) :=
  splitLastChar '/'

/-- Split a character list at its last dot. -/
def splitAtLastDot : List Char → Option (List Char × List Char) :=
  splitLastChar '.'

/-- `os.path.splitext(p)[0]` (POSIX): cut at the last dot of the final path
segment, unless every character of the segment before that dot is itself a
dot (leading dots do not start an extension), in which case the whole path
is the stem. -/
def splitextStem (p : String) : String :=
  match splitLastSlash p.data with
  | some (d, seg) =>
    match splitAtLastDot seg with
    | none => p
    | some (a, _) => if a.all (fun c => c = '.') then p else String.mk (d ++ '/' :: a)
  | none =>
    match splitAtLastDot p.data with
    | none => p
    | some (a, _) => if a.all (fun c => c = '.') then p else String.mk a

/-- `FileIO._rename_file_extension` (lines 47-54):
`os.path.splitext(file_path)[0] + '.' + extension`. -/
def rename_file_extension (file_path : String) (extension : String) : String :=
  splitextStem file_path ++ "." ++ extension

/-- The path actually used by `save_as_parquet` (lines 38-39):
`file_path` is kept as-is whenever the string ends with `"parquet"`. -/
def normParquetPath (file_path : String) : String :=
  if strEndsWith file_path "parquet" then file_path
  else rename_file_extension file_path "parquet"

/-- The path actually used by `save_as_json` (lines 106-107). -/
def normJsonPath (file_path : String) : String :=
  if strEndsWith file_path "json" then file_path
  else rename_file_extension file_path "json"

/-- The extension-normalization step shared by both save operations:
keep the path if the string already ends with the target extension,
otherwise rename the extension. -/
def normExtPath (p ext : String) : String :=
  if strEndsWith p ext then p else rename_file_extension p ext

/-- The extension-normalization algorithm as the spec words it
("if the given path's final extension already matches the target format's
extension, it is left unchanged; otherwise the text after the last '.' in
the final path segment is replaced by the target extension", appended when
absent).  Written from the spec for comparison with the code's behaviour. -/
def specClaimRename (p ext : String) : String :=
  match splitLastSlash p.data with
  | some (d, seg) =>
    match splitAtLastDot seg with
    | none => p ++ "." ++ ext
    | some (a, b) =>
      if String.mk b = ext then p else String.mk (d ++ '/' :: a) ++ "." ++ ext
  | none =>
    match splitAtLastDot p.data with
    | none => p ++ "." ++ ext
    | some (a, b) =>
      if String.mk b = ext then p else String.mk a ++ "." ++ ext

/-- An in-memory pandas DataFrame: a column list and one cell row per
record. -/
structure Table where
  cols : List String
  rows : List (List Value)

/-- Decoded content of a file on disk. -/
inductive FileData where
  | jsonData (v : Value)
  | parquetData (t : Table)
  | corruptData

/-- The filesystem: decoded file contents keyed by path, plus the set of
directories that exist. -/
structure FS where
  files : List (String × FileData)
  dirs : List String

def findFile (fs : FS) (p : String) : Option FileData :=
  dlookup p fs.files

def hasFileB (fs : FS) (p : String) : Bool :=
  (findFile fs p).isSome

def hasDirB (fs : FS) (p : String) : Bool :=
  fs.dirs.contains p

/-- `os.path.exists` (true for files and directories alike). -/
def pathExistsB (fs : FS) (p : String) : Bool :=
  hasFileB fs p || hasDirB fs p

/-- `os.remove` (only called when the path exists; directories raise). -/
def removeFile (fs : FS) (p : String) : FS :=
  ⟨fs.files.filter (fun q => !(q.1 = p : Bool)), fs.dirs⟩

/-- Create/overwrite the file at `p` with content `d`. -/
def writeFile (fs : FS) (p : String) (d : FileData) : FS :=
  ⟨fs.files.filter (fun q => !(q.1 = p : Bool)) ++ [(p, d)], fs.dirs⟩

/-- If `pat` is a prefix of `l`, return the remainder. -/
def stripPre : List Char → List Char → Option (List Char)
  | [], rest => some rest
  | _ :: _, [] => none
  | a :: as, b :: bs => if a = b then stripPre as bs else none

/-- Fuelled replace-all; with `fuel` at least the length of the input and a
nonempty pattern this is exactly Python `str.replace` (leftmost,
non-overlapping, all occurrences). -/
def replaceFuel (pat repl : List Char) : Nat → List Char → List Char
  | _, [] => []
  | 0, l => l
  | Nat.succ f, c :: cs =>
    match stripPre pat (c :: cs) with
    | some rest => repl ++ replaceFuel pat repl f rest
    | none => c :: replaceFuel pat repl f cs

/-- Python `s.replace(pat, repl)` for a nonempty `pat` (with an empty `pat`
and empty `repl`, Python also returns `s` unchanged, which is the only
empty-pattern call shape the source can make). -/
def pyReplace (s pat repl : String) : String :=
  if pat = "" then s
  else String.mk (replaceFuel pat.data repl.data s.data.length s.data)

/-- `os.path.basename` (POSIX): the text after the last slash. -/
def pyBasename (p : String) : String :=
  match splitLastSlash p.data with
  | some (_, b) => String.mk b
  | none => p

/-- Split a character list into its slash-separated components. -/
def splitSlash : List Char → List (List Char)
  | [] => [[]]
  | c :: cs =>
    if c = '/' then [] :: splitSlash cs
    else
      match splitSlash cs with
      | x :: xs => (c :: x) :: xs
      | [] => [[c]]

def joinSteps (isAbs : Bool) (acc : String) : List String → List String
  | [] => []
  | c :: cs =>
    (if acc = "" then (if isAbs then "/" ++ c else c) else acc ++ "/" ++ c) ::
      joinSteps isAbs (if acc = "" then (if isAbs then "/" ++ c else c) else acc ++ "/" ++ c) cs

/-- `pathlib.Path(p).mkdir(parents=True, exist_ok=True)`: the list of
directories that exist afterwards (the path and all its ancestors, with
empty components collapsed). -/
def mkdirDirs (p : String) : List String :=
  joinSteps (isPrefixOfB ['/'] p.data)
    "" (((splitSlash p.data).filter (fun c => !(c.isEmpty))).map String.mk)

def addDirs (ds : List String) (new : List String) : List String :=
  ds ++ new.filter (fun d => !(ds.contains d))

/-- `FileIO._check_file_path` (lines 56-67).  Returns the possibly raised
exception together with the filesystem after the call, so that "the
filesystem is untouched" is part of the model.  Note line 66: the directory
to create is computed with `file_path.replace(file_name, '')`, which deletes
every occurrence of the basename from the path. -/
def check_file_path (fs : FS) (file_path : String) (overwrite : Bool) :
    Except PyErr Unit × FS :=
  if pathExistsB fs file_path && !overwrite then
    (.error .fileExistsError, fs)
  else if pathExistsB fs file_path then
    if hasFileB fs file_path then (.ok (), removeFile fs file_path)
    else (.error .isADirectoryError, fs)
  else
    (.ok (), ⟨fs.files,
      addDirs fs.dirs (mkdirDirs (pyReplace file_path (pyBasename file_path) ""))⟩)

/-- Does the parent directory of `p` exist (so that `open(p, 'w')` or
`to_parquet(p)` can create the file)?  Paths without a slash live in the
working directory, which always exists. -/
def parentOk (fs : FS) (p : String) : Bool :=
  match splitLastSlash p.data with
  | none => true
  | some (d, _) => d.isEmpty || hasDirB fs (String.mk d)

mutual

/-- Does a value contain a native array (which `json.dump` cannot
serialize)? -/
def jsonSafeV : Value → Bool
  | .null => true
  | .bool _ => true
  | .int _ => true
  | .str _ => true
  | .list xs => jsonSafeL xs
  | .arr _ => false
  | .obj fs => jsonSafeO fs

def jsonSafeL : List Value → Bool
  | [] => true
  | v :: vs => jsonSafeV v && jsonSafeL vs

def jsonSafeO : List (String × Value) → Bool
  | [] => true
  | p :: ps => jsonSafeV p.2 && jsonSafeO ps

end

/-- `FileIO.save_as_json` (lines 96-111): normalize the extension, run the
existence/overwrite/mkdir policy, then `json.dump` the data into the file
(`FileNotFoundError` when the parent directory does not exist,
`TypeError` — leaving a corrupt partial file — when the data holds a
non-serializable native array). -/
def save_as_json (fs : FS) (file_path : String) (data : Value) (overwrite : Bool) :
    Except PyErr Unit × FS :=
  let fp := normJsonPath file_path
  match check_file_path fs fp overwrite with
  | (.error e, fs1) => (.error e, fs1)
  | (.ok _, fs1) =>
    if parentOk fs1 fp then
      if jsonSafeV data then (.ok (), writeFile fs1 fp (.jsonData data))
      else (.error .typeError, writeFile fs1 fp .corruptData)
    else (.error .fileNotFoundError, fs1)

/-- `FileIO.load_json` (lines 87-94): parse the file back; a missing file
raises, a non-json file fails to decode. -/
def load_json (fs : FS) (file_path : String) : Except PyErr Value :=
  match findFile fs file_path with
  | some (.jsonData v) => .ok v
  | some _ => .error .valueError
  | none => .error .fileNotFoundError

def isObjB : Value → Bool
  | .obj _ => true
  | _ => false

def keysOf : Value → List String
  | .obj fs => fs.map (fun p => p.1)
  | _ => []

def fieldsOf : Value → List (String × Value)
  | .obj fs => fs
  | _ => []

/-- Column set of `pd.DataFrame().from_dict(records)`: the union of the
records' keys in order of first appearance. -/
def unionKeys (records : List Value) : List String :=
  records.foldl (fun acc r => acc ++ (keysOf r).filter (fun k => !(acc.contains k))) []

/-- One DataFrame row for a record: one cell per column, `null` (NaN) for a
missing field. -/
def rowOf (cols : List String) (r : Value) : List Value :=
  cols.map (fun c => (dlookup c (fieldsOf r)).getD .null)

/-- `FileIO._convert_toDataFrame` (lines 44-45), i.e.
`pd.DataFrame().from_dict(data)` on a list of records: the column set is the
union of the records' keys and missing fields become null cells.  A list
whose elements are not all dicts is not a record collection and fails. -/
def toDataFrame (data : List Value) : Except PyErr Table :=
  if data.all isObjB then
    .ok ⟨unionKeys data, data.map (rowOf (unionKeys data))⟩
  else .error .valueError

/-- `FileIO.save_as_parquet` (lines 17-42): convert a record list to a
DataFrame, normalize the extension, run the existence/overwrite/mkdir
policy, then write the table (without the index column). -/
def save_as_parquet (fs : FS) (file_path : String) (data : List Value) (overwrite : Bool) :
    Except PyErr Unit × FS :=
  match toDataFrame data with
  | .error e => (.error e, fs)
  | .ok t =>
    let fp := normParquetPath file_path
    match check_file_path fs fp overwrite with
    | (.error e, fs1) => (.error e, fs1)
    | (.ok _, fs1) =>
      if parentOk fs1 fp then (.ok (), writeFile fs1 fp (.parquetData t))
      else (.error .fileNotFoundError, fs1)

mutual

/-- Reading a parquet file materializes every sequence-valued cell as a
native array (recursively through sequences). -/
def listToArr : Value → Value
  | .null => .null
  | .bool b => .bool b
  | .int n => .int n
  | .str s => .str s
  | .list xs => .arr (listToArrL xs)
  | .arr xs => .arr (listToArrL xs)
  | .obj fs => .obj fs

def listToArrL : List Value → List Value
  | [] => []
  | v :: vs => listToArr v :: listToArrL vs

end

mutual

def arrToListV : Value → Value
  | .null => .null
  | .bool b => .bool b
  | .int n => .int n
  | .str s => .str s
  | .list xs => .list (arrToListL xs)
  | .arr xs => .list (arrToListL xs)
  | .obj fs => .obj fs

def arrToListL : List Value → List Value
  | [] => []
  | v :: vs => arrToListV v :: arrToListL vs

end

/-- numpy `x.tolist()` applied to a cell value: native arrays become plain
lists (recursively through sequences), numpy scalars return their plain
value, and values without a `tolist` attribute (strings, `None`, plain
lists, dicts) raise `AttributeError`. -/
def tolistV : Value → Except PyErr Value
  | .arr xs => .ok (.list (arrToListL xs))
  | .int n => .ok (.int n)
  | .bool b => .ok (.bool b)
  | _ => .error .attributeError

/-- The known vector-valued fields (line 76 of the source). -/
def vector_labels : List String :=
  ["content_vector", "image_vector", "content_embedding", "keywords"]

/-- The per-row effect of the `for label in vector_labels` loop (lines
77-79): cells of a column named in `vector_labels` go through `tolist`. -/
def convRow (cols : List String) (row : List Value) : Except PyErr (List Value) :=
  mapE (fun pr => if vector_labels.contains pr.1 then tolistV pr.2 else .ok pr.2)
    (cols.zip row)

/-- `FileIO.load_parquet` (lines 69-85): read the table, convert the known
vector columns with `tolist`, and return one record per row via
`df.to_dict('records')` (every column appears in every record, in column
order). -/
def load_parquet (fs : FS) (file_path : String) : Except PyErr (List Value) :=
  match findFile fs file_path with
  | some (.parquetData t) =>
    match mapE (convRow t.cols) (t.rows.map (fun r => r.map listToArr)) with
    | .error e => .error e
    | .ok rows2 => .ok (rows2.map (fun r => .obj (t.cols.zip r)))
  | some _ => .error .valueError
  | none => .error .fileNotFoundError

/-- A well-formed raw item record: a dict whose `thumbnail.thumbnails`
field is a list of at least two entries whose second entry is a dict with a
`url` field, whose `lengthSeconds` and `viewCount` coerce with `int`, and
which carries all eight droppable fields. -/
def wellFormedRaw (v : Value) : Bool :=
  match v with
  | .obj fs =>
    (match dlookup "thumbnail" fs with
     | some (.obj t) =>
       (match dlookup "thumbnails" t with
        | some (.list xs) =>
          (match xs[1]? with
           | some (Value.obj e1) => hasKey "url" e1
           | _ => false)
        | _ => false)
     | _ => false)
    && (match dlookup "lengthSeconds" fs with
        | some w => (pyInt w).isOk
        | none => false)
    && (match dlookup "viewCount" fs with
        | some w => (pyInt w).isOk
        | none => false)
    && drops.all (fun f => hasKey f fs)
  | _ => false

/-- A normalized output record as claim C1 describes it: none of the eight
dropped fields, a `thumbnail_url` field, integer `lengthSeconds` and
`viewCount`, and no `thumbnail` field. -/
def normalizedRecordB (v : Value) : Bool :=
  match v with
  | .obj fs =>
    drops.all (fun f => !(hasKey f fs))
    && hasKey "thumbnail_url" fs
    && (match dlookup "lengthSeconds" fs with
        | some (.int _) => true
        | _ => false)
    && (match dlookup "viewCount" fs with
        | some (.int _) => true
        | _ => false)
    && !(hasKey "thumbnail" fs)
  | _ => false

/-- A raw record whose second thumbnail entry lacks the `url` sub-field
(everything else well-formed). -/
def rawRecordC2 : Value :=
  .obj [("thumbnail", .obj [("thumbnails", .list [.obj [("url", .str "x")], .obj []])]),
        ("lengthSeconds", .str "1"),
        ("viewCount", .str "2"),
        ("channelId", .null), ("isOwnerViewing", .null), ("isCrawlable", .null),
        ("allowRatings", .null), ("author", .null), ("isPrivate", .null),
        ("isUnpluggedCorpus", .null), ("isLiveContent", .null)]

mutual

/-- Does the value contain no sequence (plain list or native array) at all?
Such values are untouched by a parquet round trip. -/
def arrFreeV : Value → Bool
  | .null => true
  | .bool _ => true
  | .int _ => true
  | .str _ => true
  | .list _ => false
  | .arr _ => false
  | .obj fs => arrFreeO fs

def arrFreeO : List (String × Value) → Bool
  | [] => true
  | p :: ps => arrFreeV p.2 && arrFreeO ps

end

def arrFreeL : List Value → Bool
  | [] => true
  | v :: vs => arrFreeV v && arrFreeL vs

/-- A flat sequence (plain list or native array) of sequence-free values:
the shape of an embedding/keyword cell. -/
def plainSeqB : Value → Bool
  | .list xs => arrFreeL xs
  | .arr xs => arrFreeL xs
  | _ => false

/-- All keys distinct — the invariant of every Python dict. -/
def nodupKeysB : List (String × Value) → Bool
  | [] => true
  | p :: ps => !(hasKey p.1 ps) && nodupKeysB ps

/-- A record that a parquet round trip handles exactly: distinct keys,
vector-label fields holding flat sequences, all other fields sequence-free. -/
def recOkB (v : Value) : Bool :=
  match v with
  | .obj fs =>
    nodupKeysB fs &&
    fs.all (fun p => if vector_labels.contains p.1 then plainSeqB p.2 else arrFreeV p.2)
  | _ => false

/-- All records of the collection have the same key set. -/
def sameKeysB : List Value → Bool
  | [] => true
  | r :: rs => rs.all (fun q =>
      (keysOf q).all (fun k => (keysOf r).contains k) &&
      (keysOf r).all (fun k => (keysOf q).contains k))

/-- The record with its vector-label fields converted from native arrays to
plain ordered sequences — the change claim C4 allows the round trip. -/
def vecNormRecord (v : Value) : Value :=
  match v with
  | .obj fs => .obj (fs.map (fun p =>
      if vector_labels.contains p.1 then (p.1, arrToListV p.2) else p))
  | w => w

/-- The cell that `load_parquet` produces for column `k` of a record with
fields `fs`: vector-label columns go through the native-array/`tolist`
round trip, other columns are read back as stored. -/
def loadCell (fs : List (String × Value)) (k : String) : Value :=
  if vector_labels.contains k then arrToListV ((dlookup k fs).getD .null)
  else (dlookup k fs).getD .null

/-- The (well-formed) raw item record of the C9 scenario. -/
def innerC9 : Value :=
  .obj
    [("thumbnail", .obj [("thumbnails", .list
        [.obj [("url", .str "x")], .obj [("url", .str "y")]])]),
     ("lengthSeconds", .str "120"),
     ("viewCount", .str "5000"),
     ("channelId", .str "c1"),
     ("isOwnerViewing", .bool false),
     ("isCrawlable", .bool true),
     ("allowRatings", .bool true),
     ("author", .str "A"),
     ("isPrivate", .bool false),
     ("isUnpluggedCorpus", .bool false),
     ("isLiveContent", .bool false)]

/-- The raw input of the C9 scenario. -/
def rawC9 : Value := .obj [("a", innerC9)]

theorem stringMk_data (s : String) : String.mk s.data = s := rfl

theorem dlookup_append {α : Type} (k : String) (d e : List (String × α)) :
    dlookup k (d ++ e) =
      match dlookup k d with
      | some v => some v
      | none => dlookup k e := by
  induction d with
  | nil => rfl
  | cons p ps ih =>
    by_cases h : p.1 = k
    · simp [dlookup, h]
    · simp [dlookup, h, ih]

theorem mem_of_dlookup_eq_some {α : Type} {k : String} {v : α} :
    ∀ {d : List (String × α)}, dlookup k d = some v → (k, v) ∈ d := by
  intro d
  induction d with
  | nil => intro h; simp [dlookup] at h
  | cons p ps ih =>
    intro h
    obtain ⟨a, b⟩ := p
    by_cases hk : a = k
    · subst hk
      simp [dlookup] at h
      subst h
      exact List.mem_cons_self _ _
    · simp [dlookup, hk] at h
      exact List.mem_cons_of_mem _ (ih h)

theorem hasKey_of_mem {α : Type} {k : String} {v : α}
    {d : List (String × α)} (h : (k, v) ∈ d) : hasKey k d = true := by
  induction d with
  | nil => simp at h
  | cons p ps ih =>
    by_cases hk : p.1 = k
    · simp [hasKey, dlookup, hk]
    · rcases List.mem_cons.mp h with h1 | h1
      · rw [← h1] at hk
        simp at hk
      · simpa [hasKey, dlookup, hk] using ih h1

theorem dlookup_filterNe {α : Type} {k f : String} (h : k ≠ f)
    (d : List (String × α)) :
    dlookup k (d.filter (fun p => !(p.1 = f : Bool))) = dlookup k d := by
  have hfk : ¬ (f = k) := fun hc => h hc.symm
  induction d with
  | nil => rfl
  | cons p ps ih =>
    by_cases hf : p.1 = f
    · have hk : ¬ (p.1 = k) := by rw [hf]; exact hfk
      simp [List.filter, hf, dlookup, hk, ih, hfk]
    · by_cases hk : p.1 = k <;> simp [List.filter, hf, dlookup, hk, ih, hfk, h]

theorem dlookup_filter_self {α : Type} (f : String) (d : List (String × α)) :
    dlookup f (d.filter (fun p => !(p.1 = f : Bool))) = none := by
  induction d with
  | nil => rfl
  | cons p ps ih =>
    by_cases hf : p.1 = f
    · simp [List.filter, hf, ih]
    · simp [List.filter, hf, dlookup, ih]

theorem hasKey_filter_mono {α : Type} {k f : String} {d : List (String × α)}
    (h : hasKey k (d.filter (fun p => !(p.1 = f : Bool))) = true) :
    hasKey k d = true := by
  unfold hasKey at h
  cases hv : dlookup k (d.filter (fun p => !(p.1 = f : Bool))) with
  | none => rw [hv] at h; simp at h
  | some v =>
    have hm := mem_of_dlookup_eq_some hv
    exact hasKey_of_mem (List.mem_filter.mp hm).1

theorem dlookup_dictSet_self (d : List (String × Value)) (k : String) (v : Value) :
    dlookup k (dictSet d k v) = some v := by
  unfold dictSet
  by_cases h : hasKey k d = true
  · simp only [h, if_true]
    induction d with
    | nil => simp [hasKey, dlookup] at h
    | cons p ps ih =>
      by_cases hk : p.1 = k
      · simp [dlookup, hk]
      · have : hasKey k ps = true := by simpa [hasKey, dlookup, hk] using h
        simp [dlookup, hk, ih this]
  · simp only [h]
    rw [if_neg (by simp [h])]
    rw [dlookup_append]
    have : dlookup k d = none := by
      unfold hasKey at h
      cases hv : dlookup k d with
      | none => rfl
      | some w => rw [hv] at h; simp at h
    simp [this, dlookup]

theorem dlookup_mapSet_ne {k k' : String} (hkk : ¬ (k = k'))
    (v : Value) :
    ∀ d : List (String × Value),
      dlookup k' (d.map (fun p => if p.1 = k then (k, v) else p)) = dlookup k' d := by
  have hk'k : ¬ (k' = k) := fun hc => hkk hc.symm
  intro d
  induction d with
  | nil => rfl
  | cons p ps ih =>
    by_cases hk : p.1 = k
    · have hpk' : ¬ (p.1 = k') := by rw [hk]; exact hkk
      simp [dlookup, hk, hpk', ih, hkk, hk'k]
    · by_cases hk' : p.1 = k' <;> simp [dlookup, hk, hk', ih, hkk, hk'k]

theorem dlookup_dictSet_ne {k k' : String} (h : k ≠ k')
    (d : List (String × Value)) (v : Value) :
    dlookup k' (dictSet d k v) = dlookup k' d := by
  have hk'k : ¬ (k' = k) := fun hc => h hc.symm
  unfold dictSet
  by_cases hh : hasKey k d = true
  · simp only [hh, if_true]
    exact dlookup_mapSet_ne h v d
  · simp only [hh]
    rw [if_neg (by simp [hh])]
    rw [dlookup_append]
    cases hv : dlookup k' d with
    | some w => simp
    | none => simp [dlookup, hk'k, h]

theorem hasKey_dictSet_ne {k k' : String} (h : k ≠ k')
    (d : List (String × Value)) (v : Value) :
    hasKey k' (dictSet d k v) = hasKey k' d := by
  unfold hasKey
  rw [dlookup_dictSet_ne h]

theorem dictDel_eq_some {d : List (String × Value)} {k : String}
    {d1 : List (String × Value)} (h : dictDel d k = some d1) :
    hasKey k d = true ∧ d1 = d.filter (fun p => !(p.1 = k : Bool)) := by
  unfold dictDel at h
  by_cases hh : hasKey k d = true
  · rw [if_pos hh] at h
    exact ⟨hh, (Option.some.injEq _ _ ▸ h).symm⟩
  · rw [if_neg hh] at h
    simp at h

theorem dictDel_some_of_hasKey {d : List (String × Value)} {k : String}
    (h : hasKey k d = true) :
    dictDel d k = some (d.filter (fun p => !(p.1 = k : Bool))) := by
  unfold dictDel
  rw [if_pos h]

/-- After a successful `delAll`, every deleted key is gone and every other
key keeps its binding. -/
theorem delAll_lookups {l : List String} :
    ∀ {d r : List (String × Value)}, delAll d l = some r →
      ∀ g : String,
        (g ∈ l → hasKey g r = false) ∧ (g ∉ l → dlookup g r = dlookup g d) := by
  induction l with
  | nil =>
    intro d r h g
    unfold delAll at h
    cases h
    exact ⟨fun hg => by simp at hg, fun _ => rfl⟩
  | cons f fs ih =>
    intro d r h g
    unfold delAll at h
    cases hdel : dictDel d f with
    | none => rw [hdel] at h; simp at h
    | some d1 =>
      rw [hdel] at h
      obtain ⟨hk, hd1⟩ := dictDel_eq_some hdel
      constructor
      · intro hg
        rcases List.mem_cons.mp hg with hg | hg
        · subst hg
          cases hgr : hasKey g r with
          | false => rfl
          | true =>
            exfalso
            have h1 : hasKey g d1 = true := by
              rcases Decidable.em (g ∈ fs) with hf | hf
              · -- even then the key cannot come back; use monotonicity below
                exact absurd hgr (by simp [(ih h g).1 hf])
              · have := (ih h g).2 hf
                unfold hasKey at hgr ⊢
                rw [← this]
                exact hgr
            rw [hd1] at h1
            unfold hasKey at h1
            rw [dlookup_filter_self] at h1
            simp at h1
        · exact (ih h g).1 hg
      · intro hg
        have hgf : g ≠ f := fun hc => hg (hc ▸ List.mem_cons_self f fs)
        have hgfs : g ∉ fs := fun hc => hg (List.mem_cons_of_mem _ hc)
        rw [(ih h g).2 hgfs, hd1, dlookup_filterNe hgf]

/-- `delAll` succeeds when all the (distinct) keys to delete are present. -/
theorem delAll_some {l : List String} :
    ∀ {d : List (String × Value)}, l.Nodup → (∀ g ∈ l, hasKey g d = true) →
      ∃ r, delAll d l = some r := by
  induction l with
  | nil => intro d _ _; exact ⟨d, rfl⟩
  | cons f fs ih =>
    intro d hnd hall
    have hf : hasKey f d = true := hall f (List.mem_cons_self f fs)
    have hdel := dictDel_some_of_hasKey hf
    have hrest : ∀ g ∈ fs, hasKey g (d.filter (fun p => !(p.1 = f : Bool))) = true := by
      intro g hg
      have hgf : g ≠ f := by
        rintro rfl
        exact (List.nodup_cons.mp hnd).1 hg
      unfold hasKey
      rw [dlookup_filterNe hgf]
      exact hall g (List.mem_cons_of_mem _ hg)
    obtain ⟨r, hr⟩ := ih (List.nodup_cons.mp hnd).2 hrest
    exact ⟨r, by unfold delAll; rw [hdel]; exact hr⟩

/-- `mapE` succeeds exactly when every element succeeds. -/
theorem mapE_ok_mem {α β : Type} {f : α → Except PyErr β} :
    ∀ {l : List α} {ys : List β}, mapE f l = .ok ys →
      ∀ x ∈ l, ∃ y, f x = .ok y := by
  intro l
  induction l with
  | nil => intro ys _ x hx; simp at hx
  | cons a as ih =>
    intro ys h x hx
    unfold mapE at h
    cases hfa : f a with
    | error e => rw [hfa] at h; simp at h
    | ok y =>
      rw [hfa] at h
      cases hrec : mapE f as with
      | error e => rw [hrec] at h; simp at h
      | ok zs =>
        rcases List.mem_cons.mp hx with hx | hx
        · exact ⟨y, hx ▸ hfa⟩
        · exact ih hrec x hx

theorem mapE_error_of_mem {α β : Type} {f : α → Except PyErr β}
    {l : List α} {x : α} (hx : x ∈ l) (hfx : ∀ y, f x ≠ .ok y) :
    ∃ e, mapE f l = .error e := by
  cases h : mapE f l with
  | error e => exact ⟨e, rfl⟩
  | ok ys =>
    obtain ⟨y, hy⟩ := mapE_ok_mem h x hx
    exact absurd hy (hfx y)

theorem mapE_map_ok {α β γ : Type} {f : α → Except PyErr β} {m : γ → α}
    {g : γ → β} :
    ∀ {l : List γ}, (∀ x ∈ l, f (m x) = .ok (g x)) →
      mapE f (l.map m) = .ok (l.map g) := by
  intro l
  induction l with
  | nil => intro _; rfl
  | cons a as ih =>
    intro h
    have ha := h a (List.mem_cons_self a as)
    have has := ih (fun x hx => h x (List.mem_cons_of_mem _ hx))
    simp only [List.map]
    unfold mapE
    rw [ha, has]

theorem forall₂_map_left {P : Value → Value → Prop} {h : Value → Value} :
    ∀ {l : List Value}, (∀ x ∈ l, P (h x) x) → List.Forall₂ P (l.map h) l := by
  intro l
  induction l with
  | nil => intro _; exact List.Forall₂.nil
  | cons a as ih =>
    intro hp
    exact List.Forall₂.cons (hp a (List.mem_cons_self a as))
      (ih fun x hx => hp x (List.mem_cons_of_mem _ hx))

theorem str_append_empty (s : String) : s ++ "" = s := by
  cases s with
  | mk d => exact congrArg String.mk (List.append_nil d)

theorem splitLastChar_none {t : Char} :
    ∀ {cs : List Char}, splitLastChar t cs = none → t ∉ cs := by
  intro cs
  induction cs with
  | nil => intro _ h; simp at h
  | cons c cs ih =>
    intro h
    unfold splitLastChar at h
    cases hr : splitLastChar t cs with
    | some ab => obtain ⟨a, b⟩ := ab; rw [hr] at h; simp at h
    | none =>
      rw [hr] at h
      by_cases hc : c = t
      · rw [if_pos hc] at h; simp at h
      · intro hm
        rcases List.mem_cons.mp hm with hm | hm
        · exact hc hm.symm
        · exact ih hr hm

theorem splitLastChar_some {t : Char} :
    ∀ {cs a b : List Char}, splitLastChar t cs = some (a, b) →
      cs = a ++ t :: b ∧ t ∉ b := by
  intro cs
  induction cs with
  | nil => intro a b h; simp [splitLastChar] at h
  | cons c cs ih =>
    intro a b h
    unfold splitLastChar at h
    cases hr : splitLastChar t cs with
    | some ab =>
      obtain ⟨a0, b0⟩ := ab
      rw [hr] at h
      simp only [Option.some.injEq, Prod.mk.injEq] at h
      obtain ⟨ha, hb⟩ := h
      obtain ⟨h1, h2⟩ := ih hr
      subst ha
      subst hb
      exact ⟨by rw [List.cons_append, ← h1], h2⟩
    | none =>
      rw [hr] at h
      by_cases hc : c = t
      · rw [if_pos hc] at h
        simp only [Option.some.injEq, Prod.mk.injEq] at h
        obtain ⟨ha, hb⟩ := h
        subst ha
        subst hb
        exact ⟨by rw [hc]; rfl, splitLastChar_none hr⟩
      · rw [if_neg hc] at h; simp at h

/-- Claim C5: saving (in either format) to a normalized path at which a
file already exists, with `overwrite = false`, fails with the
already-exists error, performs no write, and leaves the filesystem — in
particular the existing file's contents — unchanged.  For the parquet
variant the records must convert to a DataFrame, which happens before the
path check in the source. -/
theorem c5_overwrite_false_fails (fs : FS) (p : String) (d : Value) (c : List Value) :
    (hasFileB fs (normJsonPath p) = true →
      save_as_json fs p d false = (.error .fileExistsError, fs)) ∧
    ((toDataFrame c).isOk = true → hasFileB fs (normParquetPath p) = true →
      save_as_parquet fs p c false = (.error .fileExistsError, fs)) := by
  constructor
  · intro h
    have hp : pathExistsB fs (normJsonPath p) = true := by
      unfold pathExistsB
      rw [h]
      rfl
    unfold save_as_json check_file_path
    simp [hp]
  · intro hc h
    obtain ⟨t, ht⟩ : ∃ t, toDataFrame c = .ok t := by
      cases htd : toDataFrame c with
      | error e => rw [htd] at hc; simp [Except.isOk, Except.toBool] at hc
      | ok t => exact ⟨t, rfl⟩
    have hp : pathExistsB fs (normParquetPath p) = true := by
      unfold pathExistsB
      rw [h]
      rfl
    unfold save_as_parquet
    rw [ht]
    unfold check_file_path
    simp [hp]

/-- Witness for C5 at a concrete filesystem holding files `a.json` and
`a.parquet`, both targeted through the unnormalized path `"a"`. -/
theorem c5_overwrite_false_fails_witness :
    hasFileB ⟨[("a.json", .jsonData .null), ("a.parquet", .jsonData .null)], []⟩ (normJsonPath "a") = true ∧
    save_as_json ⟨[("a.json", .jsonData .null), ("a.parquet", .jsonData .null)], []⟩ "a" .null false =
      (.error .fileExistsError, ⟨[("a.json", .jsonData .null), ("a.parquet", .jsonData .null)], []⟩) ∧
    save_as_parquet ⟨[("a.json", .jsonData .null), ("a.parquet", .jsonData .null)], []⟩ "a" [] false =
      (.error .fileExistsError, ⟨[("a.json", .jsonData .null), ("a.parquet", .jsonData .null)], []⟩) :=
  ⟨rfl,
   (c5_overwrite_false_fails ⟨[("a.json", .jsonData .null), ("a.parquet", .jsonData .null)], []⟩ "a" .null []).1 rfl,
   (c5_overwrite_false_fails ⟨[("a.json", .jsonData .null), ("a.parquet", .jsonData .null)], []⟩ "a" .null []).2 rfl rfl⟩

/-- Claim C8: the claim says every save to a fresh path first creates all
intermediate directories.  The code computes the directory to create as
`file_path.replace(file_name, '')` (line 66), which removes every
occurrence of the basename, so for `"a.json/b/a.json"` it creates only
`"/b"` and never the actual parent `"a.json/b"`; the subsequent write then
fails with `FileNotFoundError` even though no file existed at the path. -/
theorem c8_mkdir_misses_parent :
    pathExistsB ⟨[], []⟩ "a.json/b/a.json" = false ∧
    pyReplace "a.json/b/a.json" (pyBasename "a.json/b/a.json") "" = "/b/" ∧
    save_as_json ⟨[], []⟩ "a.json/b/a.json" (.obj []) false =
      (.error .fileNotFoundError, ⟨[], ["/b"]⟩) ∧
    hasDirB ⟨[], ["/b"]⟩ "a.json/b" = false :=
  ⟨rfl, rfl, rfl, rfl⟩

/-- Claim C3 fails as stated: the code tests `file_path.endswith('parquet')`
on the whole string, not the final extension, so `"data.myparquet"` — whose
final extension `myparquet` differs from `parquet` — is left unchanged,
while the claimed algorithm (`specClaimRename`) would rewrite it to
`"data.parquet"`. -/
theorem c3_counterexample :
    strEndsWith "data.myparquet" "parquet" = true ∧
    normParquetPath "data.myparquet" = "data.myparquet" ∧
    specClaimRename "data.myparquet" "parquet" = "data.parquet" ∧
    ("data.myparquet" : String) ≠ "data.parquet" := by
  refine ⟨rfl, rfl, rfl, ?_⟩
  decide

/-- Claim C3, amended: both save operations normalize the path by the same
rule; a path whose string already ends with the target extension (even as a
mere suffix of a longer final extension) is left unchanged; otherwise the
result is a prefix of the original path (cut at the last dot of the final
segment when that dot starts a real extension — a dot-and-slash-free
trailing run not preceded only by dots — and the whole path otherwise)
followed by a dot and the target extension, so the result always carries
the target extension. -/
theorem c3_extension_normalization_amended (p ext : String) :
    normParquetPath p = normExtPath p "parquet" ∧
    normJsonPath p = normExtPath p "json" ∧
    (strEndsWith p ext = true → normExtPath p ext = p) ∧
    (strEndsWith p ext = false →
      ∃ stem dropped, p = stem ++ dropped ∧
        normExtPath p ext = stem ++ "." ++ ext ∧
        (dropped = "" ∨ ∃ tl : List Char, dropped = String.mk ('.' :: tl) ∧
          ∀ c ∈ tl, c ≠ '.' ∧ c ≠ '/')) := by
  refine ⟨rfl, rfl, ?_, ?_⟩
  · intro h
    simp [normExtPath, h]
  · intro h
    have hne : normExtPath p ext = splitextStem p ++ "." ++ ext := by
      simp [normExtPath, h, rename_file_extension]
    unfold splitextStem at hne
    cases hs : splitLastSlash p.data with
    | some dseg =>
      obtain ⟨d, seg⟩ := dseg
      rw [hs] at hne
      dsimp only at hne
      obtain ⟨hps, hsl⟩ := splitLastChar_some hs
      cases hd : splitAtLastDot seg with
      | none =>
        rw [hd] at hne
        exact ⟨p, "", (str_append_empty p).symm, hne, Or.inl rfl⟩
      | some ab =>
        obtain ⟨a, b⟩ := ab
        rw [hd] at hne
        dsimp only at hne
        obtain ⟨hseg, hbd⟩ := splitLastChar_some hd
        by_cases hall : a.all (fun c => c = '.') = true
        · rw [if_pos hall] at hne
          exact ⟨p, "", (str_append_empty p).symm, hne, Or.inl rfl⟩
        · rw [if_neg hall] at hne
          refine ⟨String.mk (d ++ '/' :: a), String.mk ('.' :: b), ?_, hne,
            Or.inr ⟨b, rfl, ?_⟩⟩
          · have hdata : p.data = (d ++ '/' :: a) ++ '.' :: b := by
              rw [hps, hseg]
              simp
            calc p = String.mk p.data := (stringMk_data p).symm
              _ = String.mk ((d ++ '/' :: a) ++ '.' :: b) := by rw [hdata]
              _ = String.mk (d ++ '/' :: a) ++ String.mk ('.' :: b) := rfl
          · intro c hc
            constructor
            · rintro rfl; exact hbd hc
            · rintro rfl
              refine hsl ?_
              rw [hseg]
              exact List.mem_append_right a (List.mem_cons_of_mem _ hc)
    | none =>
      rw [hs] at hne
      dsimp only at hne
      have hslp : '/' ∉ p.data := splitLastChar_none hs
      cases hd : splitAtLastDot p.data with
      | none =>
        rw [hd] at hne
        exact ⟨p, "", (str_append_empty p).symm, hne, Or.inl rfl⟩
      | some ab =>
        obtain ⟨a, b⟩ := ab
        rw [hd] at hne
        dsimp only at hne
        obtain ⟨hpd, hbd⟩ := splitLastChar_some hd
        by_cases hall : a.all (fun c => c = '.') = true
        · rw [if_pos hall] at hne
          exact ⟨p, "", (str_append_empty p).symm, hne, Or.inl rfl⟩
        · rw [if_neg hall] at hne
          refine ⟨String.mk a, String.mk ('.' :: b), ?_, hne,
            Or.inr ⟨b, rfl, ?_⟩⟩
          · calc p = String.mk p.data := (stringMk_data p).symm
              _ = String.mk (a ++ '.' :: b) := by rw [hpd]
              _ = String.mk a ++ String.mk ('.' :: b) := rfl
          · intro c hc
            constructor
            · rintro rfl; exact hbd hc
            · rintro rfl
              refine hslp ?_
              rw [hpd]
              exact List.mem_append_right a (List.mem_cons_of_mem _ hc)

/-- Witness for the amended C3 at the concrete path `"file.txt"` renamed
for the json format. -/
theorem c3_extension_normalization_amended_witness :
    strEndsWith "file.txt" "json" = false ∧
    (∃ stem dropped, ("file.txt" : String) = stem ++ dropped ∧
      normExtPath "file.txt" "json" = stem ++ "." ++ "json" ∧
      (dropped = "" ∨ ∃ tl : List Char, dropped = String.mk ('.' :: tl) ∧
        ∀ c ∈ tl, c ≠ '.' ∧ c ≠ '/')) :=
  ⟨rfl, (c3_extension_normalization_amended "file.txt" "json").2.2.2 rfl⟩

theorem ne_of_mem_drops {g : String} (hg : g ∈ drops) :
    g ≠ "thumbnail_url" ∧ g ≠ "lengthSeconds" ∧ g ≠ "viewCount" := by
  refine ⟨?_, ?_, ?_⟩ <;> rintro rfl <;> revert hg <;> decide

theorem delAll_some_hasKey {l : List String} :
    ∀ {d r : List (String × Value)}, delAll d l = some r →
      ∀ g ∈ l, hasKey g d = true := by
  induction l with
  | nil => intro d r _ g hg; simp at hg
  | cons f fs ih =>
    intro d r h g hg
    unfold delAll at h
    cases hdel : dictDel d f with
    | none => rw [hdel] at h; simp at h
    | some d1 =>
      rw [hdel] at h
      obtain ⟨hk, hd1⟩ := dictDel_eq_some hdel
      rcases List.mem_cons.mp hg with hg | hg
      · exact hg ▸ hk
      · have hk1 := ih h g hg
        rw [hd1] at hk1
        exact hasKey_filter_mono hk1

theorem finishRecord_ok_hasKey {f3 : List (String × Value)} {r : Value}
    (h : finishRecord f3 = .ok r) : ∀ g ∈ drops, hasKey g f3 = true := by
  intro g hg
  unfold finishRecord at h
  cases hdel : dictDel f3 "thumbnail" with
  | none => rw [hdel] at h; simp at h
  | some f4 =>
    rw [hdel] at h
    dsimp only at h
    cases hda : delAll f4 drops with
    | none => rw [hda] at h; simp at h
    | some f5 =>
      obtain ⟨_, hd4⟩ := dictDel_eq_some hdel
      have hk4 := delAll_some_hasKey hda g hg
      rw [hd4] at hk4
      exact hasKey_filter_mono hk4

theorem coerceViewCount_ok_hasKey {f2 : List (String × Value)} {r : Value}
    (h : coerceViewCount f2 = .ok r) : ∀ g ∈ drops, hasKey g f2 = true := by
  intro g hg
  unfold coerceViewCount at h
  cases h1 : getItemV (.obj f2) "viewCount" with
  | error e => rw [h1] at h; simp at h
  | ok vc =>
    rw [h1] at h
    dsimp only at h
    cases h2 : pyInt vc with
    | error e => rw [h2] at h; simp at h
    | ok n2 =>
      rw [h2] at h
      dsimp only at h
      have hk := finishRecord_ok_hasKey h g hg
      rw [hasKey_dictSet_ne (fun hc => (ne_of_mem_drops hg).2.2 hc.symm)] at hk
      exact hk

theorem coerceLengthSeconds_ok_hasKey {f1 : List (String × Value)} {r : Value}
    (h : coerceLengthSeconds f1 = .ok r) : ∀ g ∈ drops, hasKey g f1 = true := by
  intro g hg
  unfold coerceLengthSeconds at h
  cases h1 : getItemV (.obj f1) "lengthSeconds" with
  | error e => rw [h1] at h; simp at h
  | ok ls =>
    rw [h1] at h
    dsimp only at h
    cases h2 : pyInt ls with
    | error e => rw [h2] at h; simp at h
    | ok n1 =>
      rw [h2] at h
      dsimp only at h
      have hk := coerceViewCount_ok_hasKey h g hg
      rw [hasKey_dictSet_ne (fun hc => (ne_of_mem_drops hg).2.1 hc.symm)] at hk
      exact hk

/-- A record can only pass the normalization loop if it carried all eight
droppable fields. -/
theorem processRecord_ok_hasKey {d : List (String × Value)} {r : Value}
    (h : processRecord (.obj d) = .ok r) : ∀ g ∈ drops, hasKey g d = true := by
  intro g hg
  unfold processRecord at h
  dsimp only at h
  cases h1 : getItemV (.obj d) "thumbnail" with
  | error e => rw [h1] at h; simp at h
  | ok thumb =>
    rw [h1] at h
    dsimp only at h
    cases h2 : getItemV thumb "thumbnails" with
    | error e => rw [h2] at h; simp at h
    | ok thumbs =>
      rw [h2] at h
      dsimp only at h
      cases h3 : pyIndex thumbs 1 with
      | error e => rw [h3] at h; simp at h
      | ok entry =>
        rw [h3] at h
        dsimp only at h
        cases h4 : pyGet entry "url" with
        | error e => rw [h4] at h; simp at h
        | ok url =>
          rw [h4] at h
          dsimp only at h
          have hk := coerceLengthSeconds_ok_hasKey h g hg
          rw [hasKey_dictSet_ne (fun hc => (ne_of_mem_drops hg).1 hc.symm)] at hk
          exact hk

/-- Claim C2 fails as stated on its second alternative: when the second
thumbnail entry exists but lacks the `url` sub-field, line 140 uses
`.get('url')`, which returns `None` instead of raising, so normalization
succeeds and stores a null `thumbnail_url`. -/
theorem c2_counterexample :
    convert_raw_data (.obj [("a", rawRecordC2)]) =
      .ok [.obj [("lengthSeconds", .int 1), ("viewCount", .int 2),
                 ("thumbnail_url", .null)]] := rfl

/-- Claim C2, amended: a record (under a key the outer filter keeps) whose
nested thumbnail list has fewer than two entries makes `convert_raw_data`
raise an uncaught `IndexError`; but a second thumbnail entry lacking the
`url` sub-field raises nothing — `.get` stores `None` under
`thumbnail_url` and normalization continues. -/
theorem c2_thumbnail_errors_amended :
    (∀ (k : String) (fs t : List (String × Value)) (xs : List Value),
      drops.contains k = false →
      dlookup "thumbnail" fs = some (.obj t) →
      dlookup "thumbnails" t = some (.list xs) →
      xs.length < 2 →
      convert_raw_data (.obj [(k, .obj fs)]) = .error .indexError) ∧
    convert_raw_data (.obj [("a", rawRecordC2)]) =
      .ok [.obj [("lengthSeconds", .int 1), ("viewCount", .int 2),
                 ("thumbnail_url", .null)]] := by
  constructor
  · intro k fs t xs hk h2 h3 hlen
    have hx : xs[1]? = none := List.getElem?_eq_none (by omega)
    have hk2 : ¬ (k ∈ drops) := by simpa using hk
    unfold convert_raw_data
    dsimp only
    have hfil : ([(k, Value.obj fs)].filter (fun p => !(drops.contains p.1))) =
        [(k, Value.obj fs)] := by
      simp [List.filter, hk2]
    rw [hfil]
    simp only [List.map]
    unfold mapE
    unfold processRecord
    dsimp only
    simp only [getItemV, h2, h3, pyIndex, hx]
  · rfl

/-- Witness for the amended C2: a mapping with a single-entry thumbnail
list fails with `IndexError`. -/
theorem c2_thumbnail_errors_amended_witness :
    convert_raw_data
      (.obj [("a", .obj [("thumbnail", .obj [("thumbnails", .list [])])])]) =
      .error .indexError :=
  c2_thumbnail_errors_amended.1 "a"
    [("thumbnail", .obj [("thumbnails", .list [])])]
    [("thumbnails", .list [])] [] rfl rfl rfl (by decide)

/-- Claim C6 fails as stated: a record stored under the outer key
`"author"` is silently filtered out by line 138 (`if k not in drops`), so
this mapping — whose only record lacks every droppable field — normalizes
without error to the empty list instead of failing. -/
theorem c6_counterexample :
    (∀ f ∈ drops, hasKey f ([] : List (String × Value)) = false) ∧
    convert_raw_data (.obj [("author", .obj [])]) = .ok [] :=
  ⟨by decide, rfl⟩

/-- Claim C6, amended: if some record stored under an outer key that is not
one of the eight drop names lacks one of the eight droppable fields, the
whole call fails with an exception (and hence produces no output). -/
theorem c6_missing_drop_field_fails_amended
    (kvs : List (String × Value)) (k f : String) (d : List (String × Value))
    (hmem : (k, Value.obj d) ∈ kvs) (hk : drops.contains k = false)
    (hf : f ∈ drops) (hmiss : hasKey f d = false) :
    ∃ e, convert_raw_data (.obj kvs) = .error e := by
  have hk2 : ¬ (k ∈ drops) := by simpa using hk
  unfold convert_raw_data
  dsimp only
  have hmm : Value.obj d ∈
      (kvs.filter (fun p => !(drops.contains p.1))).map (fun p => p.2) :=
    List.mem_map.mpr
      ⟨(k, Value.obj d), List.mem_filter.mpr ⟨hmem, by simp [hk2]⟩, rfl⟩
  refine mapE_error_of_mem hmm ?_
  intro y hy
  have := processRecord_ok_hasKey hy f hf
  simp [this] at hmiss

/-- Witness for the amended C6: a single record lacking `channelId`
makes the whole call fail. -/
theorem c6_missing_drop_field_fails_amended_witness :
    ∃ e, convert_raw_data (.obj [("k1", .obj [])]) = .error e :=
  c6_missing_drop_field_fails_amended [("k1", .obj [])] "k1" "channelId" []
    (List.mem_cons_self _ _) rfl (by decide) rfl

theorem thumbnail_not_mem_drops : "thumbnail" ∉ drops := by decide

theorem thumbnail_url_not_mem_drops : "thumbnail_url" ∉ drops := by decide

theorem ne_thumbnail_of_mem_drops {g : String} (hg : g ∈ drops) :
    g ≠ "thumbnail" := by
  rintro rfl
  revert hg
  decide

/-- Unpack the decidable well-formedness check into its components. -/
theorem wellFormedRaw_spec {fs : List (String × Value)}
    (h : wellFormedRaw (.obj fs) = true) :
    (∃ t xs e1, dlookup "thumbnail" fs = some (.obj t) ∧
       dlookup "thumbnails" t = some (.list xs) ∧
       xs[1]? = some (.obj e1) ∧ hasKey "url" e1 = true) ∧
    (∃ w n, dlookup "lengthSeconds" fs = some w ∧ pyInt w = .ok n) ∧
    (∃ w n, dlookup "viewCount" fs = some w ∧ pyInt w = .ok n) ∧
    (∀ g ∈ drops, hasKey g fs = true) := by
  unfold wellFormedRaw at h
  dsimp only at h
  simp only [Bool.and_eq_true] at h
  obtain ⟨⟨⟨h1, h2⟩, h3⟩, h4⟩ := h
  refine ⟨?_, ?_, ?_, ?_⟩
  · cases ht : dlookup "thumbnail" fs with
    | none => rw [ht] at h1; exact Bool.noConfusion h1
    | some tv =>
      rw [ht] at h1
      cases tv
      all_goals try (dsimp only at h1; exact Bool.noConfusion h1)
      case obj t =>
      dsimp only at h1
      cases ht2 : dlookup "thumbnails" t with
      | none => rw [ht2] at h1; exact Bool.noConfusion h1
      | some tl =>
        rw [ht2] at h1
        cases tl
        all_goals try (dsimp only at h1; exact Bool.noConfusion h1)
        case list xs =>
        dsimp only at h1
        cases hx : xs[1]? with
        | none => rw [hx] at h1; exact Bool.noConfusion h1
        | some ev =>
          rw [hx] at h1
          cases ev
          all_goals try (dsimp only at h1; exact Bool.noConfusion h1)
          case obj e1 =>
          dsimp only at h1
          exact ⟨t, xs, e1, rfl, ht2, hx, h1⟩
  · cases hl : dlookup "lengthSeconds" fs with
    | none => rw [hl] at h2; exact Bool.noConfusion h2
    | some w =>
      rw [hl] at h2
      dsimp only at h2
      cases hp : pyInt w with
      | error e => rw [hp] at h2; exact Bool.noConfusion h2
      | ok n => exact ⟨w, n, rfl, hp⟩
  · cases hl : dlookup "viewCount" fs with
    | none => rw [hl] at h3; exact Bool.noConfusion h3
    | some w =>
      rw [hl] at h3
      dsimp only at h3
      cases hp : pyInt w with
      | error e => rw [hp] at h3; exact Bool.noConfusion h3
      | ok n => exact ⟨w, n, rfl, hp⟩
  · intro g hg
    exact List.all_eq_true.mp h4 g hg

/-- Successful run of the deletion stage, with the final record's lookups.
Requires the eight droppable fields and the `thumbnail` field present. -/
theorem finishRecord_wf {f3 : List (String × Value)}
    (hth : hasKey "thumbnail" f3 = true)
    (hdr : ∀ g ∈ drops, hasKey g f3 = true) :
    ∃ f5, finishRecord f3 = .ok (.obj f5) ∧
      (∀ g ∈ drops, hasKey g f5 = false) ∧
      dlookup "thumbnail" f5 = none ∧
      (∀ g, g ∉ drops → g ≠ "thumbnail" → dlookup g f5 = dlookup g f3) := by
  have hdel := dictDel_some_of_hasKey hth
  have hdr4 : ∀ g ∈ drops, hasKey g (f3.filter (fun p => !(p.1 = "thumbnail" : Bool))) = true := by
    intro g hg
    unfold hasKey
    rw [dlookup_filterNe (ne_thumbnail_of_mem_drops hg)]
    exact hdr g hg
  obtain ⟨f5, hda⟩ := delAll_some (by decide) hdr4
  refine ⟨f5, ?_, ?_, ?_, ?_⟩
  · unfold finishRecord
    rw [hdel]
    dsimp only
    rw [hda]
  · intro g hg
    exact (delAll_lookups hda g).1 hg
  · rw [(delAll_lookups hda "thumbnail").2 thumbnail_not_mem_drops]
    exact dlookup_filter_self _ _
  · intro g hgd hgt
    rw [(delAll_lookups hda g).2 hgd]
    exact dlookup_filterNe hgt _

/-- A well-formed raw record passes the whole normalization loop and comes
out in the shape claim C1 describes. -/
theorem processRecord_wf {v : Value} (hwf : wellFormedRaw v = true) :
    ∃ r, processRecord v = .ok r ∧ normalizedRecordB r = true := by
  cases v
  all_goals try (exact Bool.noConfusion hwf)
  case obj fs =>
  obtain ⟨⟨t, xs, e1, ht, ht2, hx, _⟩, ⟨w1, n1, hl1, hp1⟩, ⟨w2, n2, hl2, hp2⟩, hdr⟩ :=
    wellFormedRaw_spec hwf
  -- the three in-place updates
  have hu1 : dlookup "lengthSeconds" (dictSet fs "thumbnail_url" ((dlookup "url" e1).getD .null)) = some w1 := by
    rw [dlookup_dictSet_ne (by decide)]
    exact hl1
  have hu2 : dlookup "viewCount"
      (dictSet (dictSet fs "thumbnail_url" ((dlookup "url" e1).getD .null)) "lengthSeconds" (.int n1)) = some w2 := by
    rw [dlookup_dictSet_ne (by decide), dlookup_dictSet_ne (by decide)]
    exact hl2
  have hth3 : hasKey "thumbnail"
      (dictSet (dictSet (dictSet fs "thumbnail_url" ((dlookup "url" e1).getD .null)) "lengthSeconds" (.int n1)) "viewCount" (.int n2)) = true := by
    rw [hasKey_dictSet_ne (by decide), hasKey_dictSet_ne (by decide), hasKey_dictSet_ne (by decide)]
    unfold hasKey
    rw [ht]
    rfl
  have hdr3 : ∀ g ∈ drops, hasKey g
      (dictSet (dictSet (dictSet fs "thumbnail_url" ((dlookup "url" e1).getD .null)) "lengthSeconds" (.int n1)) "viewCount" (.int n2)) = true := by
    intro g hg
    obtain ⟨hg1, hg2, hg3⟩ := ne_of_mem_drops hg
    rw [hasKey_dictSet_ne (fun hc => hg3 hc.symm),
        hasKey_dictSet_ne (fun hc => hg2 hc.symm),
        hasKey_dictSet_ne (fun hc => hg1 hc.symm)]
    exact hdr g hg
  obtain ⟨f5, hfin, hdrops5, hth5, hkeep5⟩ := finishRecord_wf hth3 hdr3
  refine ⟨.obj f5, ?_, ?_⟩
  · unfold processRecord
    try dsimp only
    simp only [getItemV, ht, ht2]
    try dsimp only
    simp only [pyIndex, hx]
    try dsimp only
    simp only [pyGet]
    try dsimp only
    unfold coerceLengthSeconds
    simp only [getItemV, hu1]
    try dsimp only
    rw [hp1]
    try dsimp only
    unfold coerceViewCount
    simp only [getItemV, hu2]
    try dsimp only
    rw [hp2]
    try dsimp only
    exact hfin
  · unfold normalizedRecordB
    dsimp only
    simp only [Bool.and_eq_true]
    refine ⟨⟨⟨⟨?_, ?_⟩, ?_⟩, ?_⟩, ?_⟩
    · exact List.all_eq_true.mpr (fun g hg => by rw [hdrops5 g hg]; rfl)
    · rw [hasKey, hkeep5 "thumbnail_url" thumbnail_url_not_mem_drops (by decide),
          dlookup_dictSet_ne (by decide), dlookup_dictSet_ne (by decide),
          dlookup_dictSet_self]
      rfl
    · rw [hkeep5 "lengthSeconds" (by decide) (by decide),
          dlookup_dictSet_ne (by decide), dlookup_dictSet_self]
    · rw [hkeep5 "viewCount" (by decide) (by decide), dlookup_dictSet_self]
    · rw [hasKey, hth5]
      rfl

theorem mapE_ok_exists {f : Value → Except PyErr Value} {q : Value → Bool} :
    ∀ {l : List Value}, (∀ x ∈ l, ∃ y, f x = .ok y ∧ q y = true) →
      ∃ ys, mapE f l = .ok ys ∧ ys.length = l.length ∧ ys.all q = true := by
  intro l
  induction l with
  | nil => intro _; exact ⟨[], rfl, rfl, rfl⟩
  | cons a as ih =>
    intro h
    obtain ⟨y, hy, hq⟩ := h a (List.mem_cons_self a as)
    obtain ⟨ys, hys, hlen, hall⟩ := ih (fun x hx => h x (List.mem_cons_of_mem _ hx))
    refine ⟨y :: ys, ?_, by simp [hlen], by simp [hq, hall]⟩
    unfold mapE
    rw [hy, hys]

/-- Claim C1, amended: on a mapping whose (outer) keys all avoid the eight
drop names and whose values are all well-formed raw records,
`convert_raw_data` returns exactly one normalized record per entry, each
missing the eight dropped fields and `thumbnail`, each carrying
`thumbnail_url` and integer `lengthSeconds`/`viewCount`. -/
theorem c1_normalize_well_formed_amended (kvs : List (String × Value))
    (hk : kvs.all (fun p => !(drops.contains p.1)) = true)
    (hwf : kvs.all (fun p => wellFormedRaw p.2) = true) :
    ∃ out, convert_raw_data (.obj kvs) = .ok out ∧
      out.length = kvs.length ∧ out.all normalizedRecordB = true := by
  unfold convert_raw_data
  dsimp only
  have hfil : kvs.filter (fun p => !(drops.contains p.1)) = kvs :=
    List.filter_eq_self.mpr (List.all_eq_true.mp hk)
  rw [hfil]
  have hstep : ∀ x ∈ kvs.map (fun p => p.2),
      ∃ y, processRecord x = .ok y ∧ normalizedRecordB y = true := by
    intro x hx
    obtain ⟨p, hp, hpx⟩ := List.mem_map.mp hx
    exact hpx ▸ processRecord_wf (List.all_eq_true.mp hwf p hp)
  obtain ⟨out, hout, hlen, hall⟩ := mapE_ok_exists hstep
  exact ⟨out, hout, by rw [hlen, List.length_map], hall⟩

/-- Claim C1 fails as stated: a well-formed record stored under the outer
key `"author"` (one of the drop names) is filtered out by line 138, so a
1-entry mapping yields 0 records instead of 1. -/
theorem c1_counterexample :
    wellFormedRaw innerC9 = true ∧
    convert_raw_data (.obj [("author", innerC9)]) = .ok [] ∧
    ([] : List Value).length ≠ [("author", innerC9)].length :=
  ⟨rfl, rfl, by decide⟩

/-- Witness for the amended C1 at a concrete 1-entry mapping. -/
theorem c1_normalize_well_formed_amended_witness :
    ∃ out, convert_raw_data (.obj [("a", innerC9)]) = .ok out ∧
      out.length = [("a", innerC9)].length ∧ out.all normalizedRecordB = true :=
  c1_normalize_well_formed_amended [("a", innerC9)] rfl rfl

theorem dlookup_filter_append_self {α : Type} (k : String)
    (l : List (String × α)) (v : α) :
    dlookup k (l.filter (fun q => !(q.1 = k : Bool)) ++ [(k, v)]) = some v := by
  rw [dlookup_append, dlookup_filter_self]
  simp [dlookup]

theorem findFile_writeFile_self (fs : FS) (p : String) (d : FileData) :
    findFile (writeFile fs p d) p = some d := by
  unfold findFile writeFile
  exact dlookup_filter_append_self p fs.files d

/-- Claim C7: a json round trip through the save path normalization: after
a successful `save_as_json` with overwrite, `load_json` at the normalized
path returns the saved data structurally unchanged. -/
theorem c7_json_roundtrip (fs fs1 : FS) (p : String) (d : Value)
    (h : save_as_json fs p d true = (.ok (), fs1)) :
    load_json fs1 (normJsonPath p) = .ok d := by
  unfold save_as_json at h
  try dsimp only at h
  cases hc : check_file_path fs (normJsonPath p) true with
  | mk e fs2 =>
    rw [hc] at h
    try dsimp only at h
    cases e with
    | error e0 => simp at h
    | ok u =>
      dsimp only at h
      by_cases hpar : parentOk fs2 (normJsonPath p) = true
      · rw [if_pos hpar] at h
        by_cases hsafe : jsonSafeV d = true
        · rw [if_pos hsafe] at h
          have hfs : fs1 = writeFile fs2 (normJsonPath p) (.jsonData d) := by
            have h2 := congrArg Prod.snd h
            simpa using h2.symm
          rw [hfs]
          unfold load_json
          rw [findFile_writeFile_self]
        · rw [if_neg hsafe] at h
          simp at h
      · rw [if_neg hpar] at h
        simp at h

/-- Witness for C7: saving a one-field record to the path `"x"` writes
`"x.json"`, and loading it back yields the record. -/
theorem c7_json_roundtrip_witness :
    save_as_json ⟨[], []⟩ "x" (.obj [("k", .str "v")]) true =
      (.ok (), ⟨[("x.json", .jsonData (.obj [("k", .str "v")]))], []⟩) ∧
    load_json ⟨[("x.json", .jsonData (.obj [("k", .str "v")]))], []⟩ (normJsonPath "x") =
      .ok (.obj [("k", .str "v")]) :=
  ⟨rfl,
   c7_json_roundtrip ⟨[], []⟩ ⟨[("x.json", .jsonData (.obj [("k", .str "v")]))], []⟩
     "x" (.obj [("k", .str "v")]) rfl⟩

theorem listToArr_of_arrFree {v : Value} (h : arrFreeV v = true) :
    listToArr v = v := by
  cases v <;> first | rfl | exact Bool.noConfusion h

theorem arrToListV_of_arrFree {v : Value} (h : arrFreeV v = true) :
    arrToListV v = v := by
  cases v <;> first | rfl | exact Bool.noConfusion h

theorem listToArrL_of_arrFreeL {xs : List Value} (h : arrFreeL xs = true) :
    listToArrL xs = xs := by
  induction xs with
  | nil => rfl
  | cons v vs ih =>
    unfold arrFreeL at h
    rw [Bool.and_eq_true] at h
    obtain ⟨h1, h2⟩ := h
    unfold listToArrL
    rw [listToArr_of_arrFree h1, ih h2]

theorem arrToListL_of_arrFreeL {xs : List Value} (h : arrFreeL xs = true) :
    arrToListL xs = xs := by
  induction xs with
  | nil => rfl
  | cons v vs ih =>
    unfold arrFreeL at h
    rw [Bool.and_eq_true] at h
    obtain ⟨h1, h2⟩ := h
    unfold arrToListL
    rw [arrToListV_of_arrFree h1, ih h2]

/-- On an embedding/keyword-shaped cell, the parquet materialization
(`listToArr`) followed by `tolist` is exactly the plain-sequence
conversion. -/
theorem tolist_listToArr_plainSeq {v : Value} (h : plainSeqB v = true) :
    tolistV (listToArr v) = .ok (arrToListV v) := by
  cases v with
  | list xs =>
    unfold plainSeqB at h
    simp [listToArr, tolistV, arrToListV, listToArrL_of_arrFreeL h,
          arrToListL_of_arrFreeL h]
  | arr xs =>
    unfold plainSeqB at h
    simp [listToArr, tolistV, arrToListV, listToArrL_of_arrFreeL h,
          arrToListL_of_arrFreeL h]
  | null => exact Bool.noConfusion h
  | bool b => exact Bool.noConfusion h
  | int n => exact Bool.noConfusion h
  | str st => exact Bool.noConfusion h
  | obj fs => exact Bool.noConfusion h

theorem zip_map_self (l : List String) (g : String → Value) :
    l.zip (l.map g) = l.map (fun a => (a, g a)) := by
  have h := List.zip_map' id g l
  rw [List.map_id] at h
  exact h

theorem hasKey_iff_mem_keys {α : Type} {k : String} {fs : List (String × α)} :
    hasKey k fs = true ↔ k ∈ fs.map (fun p => p.1) := by
  constructor
  · intro h
    unfold hasKey at h
    cases hv : dlookup k fs with
    | none => rw [hv] at h; exact Bool.noConfusion h
    | some v => exact List.mem_map.mpr ⟨(k, v), mem_of_dlookup_eq_some hv, rfl⟩
  · intro h
    obtain ⟨q, hq, hq1⟩ := List.mem_map.mp h
    refine hasKey_of_mem (v := q.2) ?_
    rw [← hq1]
    simpa using hq

/-- One row of the saved table read back: every cell is materialized as a
native array and the vector-label columns run through `tolist`. -/
theorem convRow_ok {fs : List (String × Value)} {cols : List String}
    (hcols : ∀ k ∈ cols, hasKey k fs = true)
    (hvals : ∀ q ∈ fs,
      (if vector_labels.contains q.1 then plainSeqB q.2 else arrFreeV q.2) = true) :
    convRow cols ((rowOf cols (.obj fs)).map listToArr) =
      .ok (cols.map (loadCell fs)) := by
  unfold convRow rowOf
  dsimp only [fieldsOf]
  rw [List.map_map, zip_map_self]
  refine mapE_map_ok ?_
  intro k hk
  dsimp only [Function.comp]
  obtain ⟨v, hv⟩ : ∃ v, dlookup k fs = some v := by
    have := hcols k hk
    unfold hasKey at this
    cases hv : dlookup k fs with
    | none => rw [hv] at this; exact Bool.noConfusion this
    | some v => exact ⟨v, rfl⟩
  have hmem := mem_of_dlookup_eq_some hv
  have hq := hvals (k, v) hmem
  by_cases hlab : vector_labels.contains k = true
  · rw [if_pos hlab] at hq ⊢
    unfold loadCell
    rw [if_pos hlab, hv]
    simp only [Option.getD]
    exact tolist_listToArr_plainSeq hq
  · rw [if_neg hlab] at hq ⊢
    unfold loadCell
    rw [if_neg hlab, hv]
    simp only [Option.getD]
    rw [listToArr_of_arrFree hq]

theorem foldl_unionStep_const : ∀ (rest : List Value) (acc : List String),
    (∀ r ∈ rest, ∀ k ∈ keysOf r, k ∈ acc) →
    List.foldl (fun acc r => acc ++ (keysOf r).filter (fun k => !(acc.contains k)))
      acc rest = acc := by
  intro rest
  induction rest with
  | nil => intro acc _; rfl
  | cons r rs ih =>
    intro acc h
    dsimp only [List.foldl]
    have hfil : (keysOf r).filter (fun k => !(acc.contains k)) = [] := by
      rw [List.filter_eq_nil_iff]
      intro k hk
      have hm : k ∈ acc := h r (List.mem_cons_self r rs) k hk
      simp [hm]
    rw [hfil, List.append_nil]
    exact ih acc (fun r2 hr2 => h r2 (List.mem_cons_of_mem _ hr2))

/-- When all records share the first record's key set, the DataFrame's
column list is exactly the first record's key list. -/
theorem unionKeys_cons_same (c0 : Value) (rest : List Value)
    (hsub : ∀ r ∈ rest, ∀ k ∈ keysOf r, k ∈ keysOf c0) :
    unionKeys (c0 :: rest) = keysOf c0 := by
  unfold unionKeys
  dsimp only [List.foldl]
  have hstep : ([] : List String) ++
      (keysOf c0).filter (fun k => !(([] : List String).contains k)) = keysOf c0 := by
    simp
  rw [hstep]
  exact foldl_unionStep_const rest (keysOf c0) hsub

theorem nodupKeysB_nodup {fs : List (String × Value)} (h : nodupKeysB fs = true) :
    (fs.map (fun p => p.1)).Nodup := by
  induction fs with
  | nil => simp
  | cons p ps ih =>
    unfold nodupKeysB at h
    rw [Bool.and_eq_true] at h
    obtain ⟨h1, h2⟩ := h
    rw [List.map_cons, List.nodup_cons]
    refine ⟨?_, ih h2⟩
    intro hmem
    have : hasKey p.1 ps = true := hasKey_iff_mem_keys.mpr hmem
    rw [this] at h1
    exact Bool.noConfusion h1

theorem keys_perm_of_same_set {l1 l2 : List String} (h1 : l1.Nodup)
    (h2 : l2.Nodup) (h : ∀ k, k ∈ l1 ↔ k ∈ l2) : l1.Perm l2 :=
  List.perm_of_nodup_nodup_toFinset_eq h1 h2
    (Finset.ext fun k => by simp only [List.mem_toFinset]; exact h k)

/-- A dict with distinct keys is the list of its key/value pairs indexed by
its key list (after any key-preserving value transformation). -/
theorem fields_eq_map_keys {fs : List (String × Value)}
    (h : nodupKeysB fs = true) (hfun : String → Value → Value) :
    fs.map (fun p => (p.1, hfun p.1 p.2)) =
      (fs.map (fun p => p.1)).map
        (fun k => (k, hfun k ((dlookup k fs).getD .null))) := by
  induction fs with
  | nil => rfl
  | cons p ps ih =>
    unfold nodupKeysB at h
    rw [Bool.and_eq_true] at h
    obtain ⟨h1, h2⟩ := h
    dsimp only [List.map]
    congr 1
    · have : dlookup p.1 (p :: ps) = some p.2 := by simp [dlookup]
      rw [this]
      rfl
    · rw [ih h2]
      apply List.map_congr_left
      intro k hk
      have hne : ¬ (p.1 = k) := by
        intro hc
        have : hasKey p.1 ps = true := hasKey_iff_mem_keys.mpr (hc ▸ hk)
        rw [this] at h1
        exact Bool.noConfusion h1
      simp [dlookup, hne]

theorem vecNorm_fields (fs : List (String × Value)) :
    fieldsOf (vecNormRecord (.obj fs)) =
      fs.map (fun p =>
        (p.1, if vector_labels.contains p.1 then arrToListV p.2 else p.2)) := by
  unfold vecNormRecord fieldsOf
  dsimp only
  apply List.map_congr_left
  intro q _
  by_cases hc : vector_labels.contains q.1 = true
  · rw [if_pos hc, if_pos hc]
  · rw [if_neg hc, if_neg hc]

theorem keysOf_eq_map_fields (r : Value) :
    keysOf r = (fieldsOf r).map (fun q => q.1) := by
  cases r <;> rfl

/-- Claim C4 fails as stated: for `C = [{"a": 1}, {}]` the save computes
the column union and fills missing fields with nulls, so the second record
comes back as `{"a": null}` — a different (field, value) pair set than the
empty record, with `"a"` not a vector field. -/
theorem c4_counterexample :
    save_as_parquet ⟨[], []⟩ "p" [.obj [("a", .int 1)], .obj []] true =
      (.ok (), ⟨[("p.parquet", .parquetData ⟨["a"], [[.int 1], [.null]]⟩)], []⟩) ∧
    load_parquet ⟨[("p.parquet", .parquetData ⟨["a"], [[.int 1], [.null]]⟩)], []⟩
      (normParquetPath "p") = .ok [.obj [("a", .int 1)], .obj [("a", .null)]] ∧
    ¬ (fieldsOf (.obj [("a", .null)])).Perm (fieldsOf (.obj ([] : List (String × Value)))) := by
  refine ⟨rfl, rfl, ?_⟩
  intro h
  have := h.length_eq
  simp [fieldsOf] at this

/-- Claim C4, amended: the parquet round trip restores each record's
(field, value) pairs — up to the column reordering a table imposes — with
vector-label fields coming back as plain ordered sequences, provided the
records form a rectangular table (all key sets equal, keys distinct) and
sequences only occur, flat, under the vector labels. -/
theorem c4_parquet_roundtrip_amended (fs fs1 : FS) (p : String) (C : List Value)
    (hrec : C.all recOkB = true) (hsame : sameKeysB C = true)
    (hsave : save_as_parquet fs p C true = (.ok (), fs1)) :
    ∃ out, load_parquet fs1 (normParquetPath p) = .ok out ∧
      List.Forall₂ (fun o r => (fieldsOf o).Perm (fieldsOf (vecNormRecord r))) out C := by
  rw [List.all_eq_true] at hrec
  have hobj : ∀ r ∈ C, ∃ fsr, r = .obj fsr := by
    intro r hr
    have h := hrec r hr
    cases r
    case obj fsr => exact ⟨fsr, rfl⟩
    all_goals exact Bool.noConfusion h
  have hobjB : C.all isObjB = true := by
    rw [List.all_eq_true]
    intro r hr
    obtain ⟨fsr, rfl⟩ := hobj r hr
    rfl
  have htd : toDataFrame C = .ok ⟨unionKeys C, C.map (rowOf (unionKeys C))⟩ := by
    unfold toDataFrame
    simp [hobjB]
  have hkeyfacts : ∀ r ∈ C, (∀ k ∈ unionKeys C, k ∈ keysOf r) ∧
      (unionKeys C).Perm ((fieldsOf r).map (fun q => q.1)) := by
    cases C with
    | nil => intro r hr; simp at hr
    | cons c0 rest =>
      have hiff : ∀ r ∈ rest, ∀ k, (k ∈ keysOf r ↔ k ∈ keysOf c0) := by
        unfold sameKeysB at hsame
        rw [List.all_eq_true] at hsame
        intro r hr k
        have h2 := hsame r hr
        rw [Bool.and_eq_true] at h2
        obtain ⟨ha, hb⟩ := h2
        rw [List.all_eq_true] at ha hb
        constructor
        · intro hk
          have := ha k hk
          simpa using this
        · intro hk
          have := hb k hk
          simpa using this
      have hcols : unionKeys (c0 :: rest) = keysOf c0 :=
        unionKeys_cons_same c0 rest (fun r hr k hk => (hiff r hr k).mp hk)
      have hnd : ∀ r ∈ c0 :: rest, (keysOf r).Nodup := by
        intro r hr
        obtain ⟨fsr, rfl⟩ := hobj r hr
        have h := hrec _ hr
        unfold recOkB at h
        dsimp only at h
        rw [Bool.and_eq_true] at h
        rw [keysOf_eq_map_fields]
        exact nodupKeysB_nodup h.1
      intro r hr
      have hiffr : ∀ k, (k ∈ keysOf r ↔ k ∈ keysOf c0) := by
        rcases List.mem_cons.mp hr with hr0 | hr0
        · subst hr0; intro k; exact Iff.rfl
        · exact hiff r hr0
      constructor
      · intro k hk
        rw [hcols] at hk
        exact (hiffr k).mpr hk
      · rw [hcols, ← keysOf_eq_map_fields]
        exact keys_perm_of_same_set (hnd c0 (List.mem_cons_self c0 rest))
          (hnd r hr) (fun k => ((hiffr k).symm))
  unfold save_as_parquet at hsave
  rw [htd] at hsave
  dsimp only at hsave
  cases hc : check_file_path fs (normParquetPath p) true with
  | mk e fs2 =>
    rw [hc] at hsave
    try dsimp only at hsave
    cases e with
    | error e0 => simp at hsave
    | ok u =>
      dsimp only at hsave
      by_cases hpar : parentOk fs2 (normParquetPath p) = true
      · rw [if_pos hpar] at hsave
        have hfs : fs1 = writeFile fs2 (normParquetPath p)
            (.parquetData ⟨unionKeys C, C.map (rowOf (unionKeys C))⟩) := by
          have h2 := congrArg Prod.snd hsave
          simpa using h2.symm
        rw [hfs]
        unfold load_parquet
        rw [findFile_writeFile_self]
        dsimp only
        have hmap : mapE (convRow (unionKeys C))
            ((C.map (rowOf (unionKeys C))).map (fun r => r.map listToArr)) =
            .ok (C.map (fun r => (unionKeys C).map (loadCell (fieldsOf r)))) := by
          rw [List.map_map]
          refine mapE_map_ok ?_
          intro r hr
          obtain ⟨fsr, rfl⟩ := hobj r hr
          have h := hrec _ hr
          unfold recOkB at h
          dsimp only at h
          rw [Bool.and_eq_true] at h
          refine convRow_ok ?_ (List.all_eq_true.mp h.2)
          intro k hk
          have hmemk := (hkeyfacts _ hr).1 k hk
          rw [keysOf_eq_map_fields] at hmemk
          exact hasKey_iff_mem_keys.mpr hmemk
        rw [hmap]
        dsimp only
        refine ⟨_, rfl, ?_⟩
        rw [List.map_map]
        refine forall₂_map_left ?_
        intro r hr
        obtain ⟨fsr, rfl⟩ := hobj r hr
        have h := hrec _ hr
        unfold recOkB at h
        dsimp only at h
        rw [Bool.and_eq_true] at h
        dsimp only [Function.comp]
        have e2 : fieldsOf (Value.obj
            ((unionKeys C).zip ((unionKeys C).map (loadCell (fieldsOf (Value.obj fsr)))))) =
            (unionKeys C).map (fun a => (a, loadCell fsr a)) := by
          dsimp only [fieldsOf]
          exact zip_map_self _ _
        rw [e2, vecNorm_fields fsr,
            fields_eq_map_keys h.1
              (fun k v => if vector_labels.contains k then arrToListV v else v)]
        have hperm := (hkeyfacts _ hr).2
        dsimp only [fieldsOf] at hperm
        exact List.Perm.map (fun k => (k, loadCell fsr k)) hperm
      · rw [if_neg hpar] at hsave
        simp at hsave

/-- Witness for the amended C4 at a one-record collection with a keyword
vector field. -/
theorem c4_parquet_roundtrip_amended_witness :
    (save_as_parquet ⟨[], []⟩ "f" [.obj [("v", .int 1), ("keywords", .list [.str "a"])]] true =
      (.ok (), ⟨[("f.parquet", .parquetData
        ⟨["v", "keywords"], [[.int 1, .list [.str "a"]]]⟩)], []⟩)) ∧
    (∃ out, load_parquet
        ⟨[("f.parquet", .parquetData ⟨["v", "keywords"], [[.int 1, .list [.str "a"]]]⟩)], []⟩
        (normParquetPath "f") = .ok out ∧
      List.Forall₂ (fun o r => (fieldsOf o).Perm (fieldsOf (vecNormRecord r))) out
        [.obj [("v", .int 1), ("keywords", .list [.str "a"])]]) :=
  ⟨rfl,
   c4_parquet_roundtrip_amended ⟨[], []⟩
     ⟨[("f.parquet", .parquetData ⟨["v", "keywords"], [[.int 1, .list [.str "a"]]]⟩)], []⟩
     "f" [.obj [("v", .int 1), ("keywords", .list [.str "a"])]] rfl rfl rfl⟩

/-- Claim C9: on the given concrete raw mapping, `convert_raw_data` returns
a single record equal (as a mapping, i.e. up to field order) to
`{thumbnail_url: "y", lengthSeconds: 120, viewCount: 5000}`. -/
theorem c9_concrete_scenario :
    convert_raw_data rawC9 =
      .ok [.obj [("lengthSeconds", .int 120), ("viewCount", .int 5000),
                 ("thumbnail_url", .str "y")]] ∧
    List.Perm
      [("lengthSeconds", Value.int 120), ("viewCount", Value.int 5000),
       ("thumbnail_url", Value.str "y")]
      [("thumbnail_url", Value.str "y"), ("lengthSeconds", Value.int 120),
       ("viewCount", Value.int 5000)] := by
  constructor
  · rfl
  · exact @List.perm_append_comm _
      [("lengthSeconds", Value.int 120), ("viewCount", Value.int 5000)]
      [("thumbnail_url", Value.str "y")]

/-- Claim C10: `create_video_url` is exactly the concatenation
`"https://www.youtube.com/watch?v=" ++ video_id ++ "&list=" ++ playlist_id`;
being a Lean function of its two arguments it is deterministic and
side-effect free. -/
theorem c10_create_video_url (v p : String) :
    create_video_url v p = "https://www.youtube.com/watch?v=" ++ v ++ "&list=" ++ p := rfl
